import Mathlib

/-!
Verification of the persistence/consistency core of the agenda note manager
(`src/db.ts`). The development embeds the store at two levels:

* an untyped JSON-value level (`JVal`) for the category-shape migration
  `migrateCategories` and the raw ledger loader `getFromStorage`, whose inputs
  are arbitrary values parsed back from the storage substrate;
* a typed ledger level (`StoreState`) for the store operations `register`,
  `getCurrentUser`, `deleteNote`, `deleteCategory`, `deleteGroup`,
  `updateProject`, operating on well-shaped records, which is the state the
  program maintains through its own save helpers.

Record fields the verified operations never inspect (attachments, reminders,
custom tabs, timestamps beyond `createdAt`) are omitted from the typed
records; everything an operation reads or writes is carried.
-/

namespace Agenda

/-- Untyped JSON-like values: what `JSON.parse` can hand back from the
storage substrate before any shape validation. -/
inductive JVal where
  | null
  | bool (b : Bool)
  | num (n : Int)
  | str (s : String)
  | arr (items : List JVal)
  | obj (fields : List (String × JVal))

/-- JavaScript truthiness of a value (`null`, `false`, `0` and the empty
string are falsy; arrays and objects are always truthy). -/
def truthy : JVal → Bool
  | .null => false
  | .bool b => b
  | .num n => n != 0
  | .str s => s ≠ ""
  | .arr _ => true
  | .obj _ => true

/-- Truthiness of a possibly-absent value (`undefined` is falsy). -/
def truthyO : Option JVal → Bool
  | none => false
  | some v => truthy v

/-- First binding of a key in an object's field list. -/
def lookupField : List (String × JVal) → String → Option JVal
  | [], _ => none
  | (k, v) :: rest, key => if k = key then some v else lookupField rest key

/-- Property access `v.key`: defined on objects, `undefined` (`none`)
elsewhere. -/
def getField : JVal → String → Option JVal
  | .obj fs, key => lookupField fs key
  | _, _ => none

/-- Index access `v[0]`: the head of an array, the first character of a
string, the `"0"` field of an object, `undefined` otherwise. -/
def getIndex0 : JVal → Option JVal
  | .arr items => items.head?
  | .str s => s.data.head?.map (fun c => .str (String.mk [c]))
  | .obj fs => lookupField fs "0"
  | _ => none

/-- Whether a possibly-absent value is a string (`typeof v === "string"`). -/
def isStrO : Option JVal → Bool
  | some (.str _) => true
  | _ => false

/-- Whether a possibly-absent value is an array (`Array.isArray(v)`). -/
def isArrO : Option JVal → Bool
  | some (.arr _) => true
  | _ => false

/-- Whether a value is an array. -/
def isArr : JVal → Bool
  | .arr _ => true
  | _ => false

/-- Signed 32-bit wrap-around (`ToInt32`), used by the `<<` shift in the
name-to-color hash. -/
def toInt32 (n : Int) : Int :=
  let m := n % 4294967296
  if m < 2147483648 then m else m - 4294967296

/-- The fixed color palette (`PALETTE_COLORS`), 17 entries in source order. -/
def PALETTE_COLORS : List String :=
  ["cat-sky", "cat-green", "cat-amber", "cat-indigo", "cat-rose", "cat-teal",
   "cat-fuchsia", "cat-lime", "cat-cyan", "cat-violet", "cat-red", "cat-orange",
   "cat-yellow", "cat-emerald", "cat-blue", "cat-purple", "cat-pink"]

/-- A named category with its display color. -/
structure Category where
  name : String
  color : String
deriving DecidableEq, Repr

/-- The nine predefined categories (`PREDEFINED_CATEGORIES`), in source
order. -/
def PREDEFINED_CATEGORIES : List Category :=
  [⟨"Trabajo", "cat-sky"⟩, ⟨"Personal", "cat-green"⟩,
   ⟨"Hogar", "cat-amber"⟩, ⟨"Estudios", "cat-indigo"⟩,
   ⟨"Salud", "cat-rose"⟩, ⟨"Compras", "cat-teal"⟩,
   ⟨"Ocio", "cat-lime"⟩, ⟨"Urgente", "cat-red"⟩,
   ⟨"Idea", "cat-violet"⟩]

/-- The deterministic name-to-color hash (`stringToHash`):
`hash = charCode + ((hash << 5) - hash)` folded over the characters, then
`Math.abs`. The shift coerces to a signed 32-bit integer; the addition and
subtraction are exact (the magnitudes stay far below 2^53). Characters are
taken as Unicode scalar values. -/
def stringToHash (s : String) : Nat :=
  (s.data.foldl (fun hash c => (c.toNat : Int) + (toInt32 (hash * 32) - hash)) 0).natAbs

/-- Color resolution for a category name: the predefined color when the name
matches a predefined category, else the palette entry at
`stringToHash name % PALETTE_COLORS.length`. -/
def colorFor (catName : String) : String :=
  match PREDEFINED_CATEGORIES.find? (fun p => p.name = catName) with
  | some p => p.color
  | none => PALETTE_COLORS.getD (stringToHash catName % PALETTE_COLORS.length) ""

/-- The migrated form of one master-list name: `{ name, color }` with the
resolved color. -/
def mkCat (s : String) : JVal :=
  .obj [("name", .str s), ("color", .str (colorFor s))]

/-- Migration of one master-list entry. The source types the entry as a bare
string (`catName: string`); a non-string entry is outside that typed domain
and is modelled as an error. -/
def migEntry : JVal → Except Unit JVal
  | .str s => .ok (mkCat s)
  | _ => .error ()

/-- Elementwise mapping over a list of values, propagating the first
error. -/
def jsMapList (f : JVal → Except Unit JVal) : List JVal → Except Unit (List JVal)
  | [] => .ok []
  | a :: as =>
    match f a with
    | .error e => .error e
    | .ok b =>
      match jsMapList f as with
      | .error e => .error e
      | .ok bs => .ok (b :: bs)

/-- `.map` over a value: defined on arrays; calling `.map` on anything else
throws in JavaScript, modelled as an error. -/
def jsMap (f : JVal → Except Unit JVal) : JVal → Except Unit (List JVal)
  | .arr items => jsMapList f items
  | _ => .error ()

/-- The `name` field of a migrated entry (`c => c.name`). -/
def catNameOf (c : JVal) : JVal :=
  (getField c "name").getD .null

/-- A `CategorySettings`-shaped object `{ masterList, active }`. -/
def settingsObj (ml : List JVal) (act : JVal) : JVal :=
  .obj [("masterList", .arr ml), ("active", act)]

/-- `migrateCategories`: normalizes a legacy category structure into the
current `CategorySettings` shape.
* a bare array whose first entry is a string: resolve every name to a colored
  category, `active` = all names;
* a truthy value whose `masterList` field is truthy with a string first
  entry: same per-name resolution, `active` kept when truthy, else all names;
* anything else already carrying an array `masterList`: returned unchanged;
* otherwise: the default `{ masterList: [], active: [] }`. -/
def migrateCategories (old : JVal) : Except Unit JVal :=
  if isArr old && isStrO (getIndex0 old) then do
    let ml ← jsMap migEntry old
    .ok (settingsObj ml (.arr (ml.map catNameOf)))
  else if truthy old && truthyO (getField old "masterList")
      && isStrO (getIndex0 ((getField old "masterList").getD .null)) then do
    let ml ← jsMap migEntry ((getField old "masterList").getD .null)
    .ok (settingsObj ml
      (if truthyO (getField old "active") then (getField old "active").getD .null
       else .arr (ml.map catNameOf)))
  else if truthy old && isArrO (getField old "masterList") then
    .ok old
  else
    .ok (settingsObj [] (.arr []))

/-! ## Typed data model (the shapes the store's own save helpers maintain) -/

/-- A user account record. -/
structure User where
  id : String
  username : String
  password : String
  company : Option String := none
  photoB64 : Option String := none
  email : Option String := none
  phone : Option String := none
deriving DecidableEq, Repr

/-- The public projection of a user (`PublicUser`): every field of `User`
except `password`. -/
structure PublicUser where
  id : String
  username : String
  company : Option String := none
  photoB64 : Option String := none
  email : Option String := none
  phone : Option String := none
deriving DecidableEq, Repr

/-- The `sharedWith` record of a note. -/
structure SharedWith where
  users : List String
  groups : List String
deriving DecidableEq, Repr

/-- A note record. Fields the verified operations never inspect
(description, attachments, date, time, location, reminder) are omitted. -/
structure Note where
  id : String
  text : String
  isCompleted : Bool := false
  createdAt : Nat := 0
  categories : List String := []
  ownerId : String := ""
  ownerName : String := ""
  sharedWith : SharedWith := ⟨[], []⟩
  projectIds : List String := []
  parentId : Option String := none
deriving DecidableEq, Repr

/-- A group member with a role (`admin` or `member`). -/
structure GroupMember where
  userId : String
  isAdmin : Bool
deriving DecidableEq, Repr

/-- A group record. -/
structure Group where
  id : String
  name : String
  ownerId : String := ""
  members : List GroupMember := []
  pendingMemberIds : List String := []
deriving DecidableEq, Repr

/-- The per-scope category settings: the full catalog (`masterList`) and the
enabled names (`active`). -/
structure CategorySettings where
  masterList : List Category
  active : List String
deriving DecidableEq, Repr

/-- A project record. Custom tabs are omitted (no verified operation reads
them). -/
structure Project where
  id : String
  name : String
  description : Option String := none
  ownerId : String := ""
  color : String := ""
  categories : CategorySettings := ⟨[], []⟩
deriving DecidableEq, Repr

/-- The store's state: the four entity ledgers, the per-user general category
map (`Record<string, CategorySettings>`, modelled as a partial map) and the
session slot (which holds the serialized public projection of the logged-in
user; well-formed content is modelled directly). -/
structure StoreState where
  users : List User
  notes : List Note
  groups : List Group
  projects : List Project
  userCats : String → Option CategorySettings
  session : Option PublicUser

/-- The public projection of a stored user (the `{ password, ...rest }`
destructuring). -/
def publicOf (u : User) : PublicUser :=
  ⟨u.id, u.username, u.company, u.photoB64, u.email, u.phone⟩

/-- The default general category settings seeded at registration and on first
read: all predefined categories, all active. -/
def defaultCats : CategorySettings :=
  ⟨PREDEFINED_CATEGORIES, PREDEFINED_CATEGORIES.map (fun c => c.name)⟩

/-- `saveGeneralCategories`: stores a user's general category settings in the
per-user map (`all[userId] = categories`). -/
def saveGeneralCategories (ucats : String → Option CategorySettings)
    (userId : String) (cats : CategorySettings) : String → Option CategorySettings :=
  fun k => if k = userId then some cats else ucats k

/-- `getGeneralCategories`: reads a user's general settings, seeding (and
persisting) the defaults on first access. Returns the settings and the
possibly-updated map. The source's legacy-shape migration branch is dead on
well-shaped stored settings and is handled at the untyped level by
`migrateCategories`. -/
def getGeneralCategories (ucats : String → Option CategorySettings)
    (userId : String) : CategorySettings × (String → Option CategorySettings) :=
  match ucats userId with
  | none => (defaultCats, saveGeneralCategories ucats userId defaultCats)
  | some d => (d, ucats)

/-- `register`: fails and leaves the state untouched when the username is
already taken (exact, case-sensitive comparison); otherwise seeds the new
user's default general categories, appends the user record and returns its
public projection. The freshly generated identifier (`uuid()`) is passed in
as `newId`. -/
def register (st : StoreState) (username password newId : String) :
    Option PublicUser × StoreState :=
  if st.users.any (fun u => u.username = username) then (none, st)
  else
    let newUser : User := { id := newId, username := username, password := password }
    (some (publicOf newUser),
     { st with
        userCats := saveGeneralCategories st.userCats newUser.id defaultCats,
        users := st.users ++ [newUser] })

/-- `getCurrentUser`: reads the session slot; when it references a user that
no longer exists, clears the slot and reports no user (self-healing). -/
def getCurrentUser (st : StoreState) : Option PublicUser × StoreState :=
  match st.session with
  | none => (none, st)
  | some sess =>
    match st.users.find? (fun u => u.id = sess.id) with
    | none => (none, { st with session := none })
    | some fullUser => (some (publicOf fullUser), st)

/-- `getProjectsForUser`: the projects owned by a user. -/
def getProjectsForUser (projects : List Project) (userId : String) : List Project :=
  projects.filter (fun p => p.ownerId = userId)

/-- `updateProject`: full-record replace of the first project whose id
matches (the source's `findIndex` + assignment; a no-op when the id is
absent). -/
def updateProject (projects : List Project) (up : Project) : List Project :=
  match projects with
  | [] => []
  | p :: ps => if p.id = up.id then up :: ps else p :: updateProject ps up

/-- The per-note category scrub of `deleteCategory`: strip the name from a
note's `categories` when present, leave the note alone otherwise. -/
def scrubCat (categoryName : String) (note : Note) : Note :=
  if categoryName ∈ note.categories then
    { note with categories := note.categories.filter (fun c => ¬(c = categoryName)) }
  else note

/-- `deleteCategory`: phase 1 removes the name from the owning scope's
settings — the named project's settings when `projectId` is given and that
project is among the caller's own projects, else the caller's general
settings — and phase 2 strips the name from the `categories` of every note
in the ledger, whatever its owner or project. -/
def deleteCategory (st : StoreState) (userId categoryName : String)
    (projectId : Option String) : StoreState :=
  let st1 :=
    match projectId with
    | some pid =>
      match (getProjectsForUser st.projects userId).find? (fun p : Project => p.id = pid) with
      | some project =>
        let updated : Project :=
          { project with categories :=
              ⟨project.categories.masterList.filter (fun c => ¬(c.name = categoryName)),
               project.categories.active.filter (fun c => ¬(c = categoryName))⟩ }
        { st with projects := updateProject st.projects updated }
      | none => st
    | none =>
      let r := getGeneralCategories st.userCats userId
      let updated : CategorySettings :=
        ⟨r.1.masterList.filter (fun c => ¬(c.name = categoryName)),
         r.1.active.filter (fun c => ¬(c = categoryName))⟩
      { st with userCats := saveGeneralCategories r.2 userId updated }
  { st1 with notes := st1.notes.map (scrubCat categoryName) }

/-! ## Cascading note deletion (`deleteNote`)

The source builds a parent-to-children adjacency map over the whole ledger,
then runs a queue-based traversal from the target id, guarding with the
`idsToDelete` set so no id is processed twice, and finally filters the ledger
by the collected set. -/

/-- The children of a note id in the adjacency map: the ids (in ledger order)
of the notes whose `parentId` is the given id. -/
def childIds (notes : List Note) (pid : String) : List String :=
  (notes.filter (fun n => n.parentId = some pid)).map (fun n => n.id)

/-- The inner loop over one node's children: each child not yet collected is
added to the collected set and pushed on the queue, in order. -/
def enqueueChildren : List String → List String → List String → List String × List String
  | seen, queue, [] => (seen, queue)
  | seen, queue, c :: cs =>
    if c ∈ seen then enqueueChildren seen queue cs
    else enqueueChildren (seen ++ [c]) (queue ++ [c]) cs

/-- The distinct note ids of a ledger (the only ids the traversal can ever
collect beyond its start id). -/
def noteIds (notes : List Note) : List String :=
  (notes.map Note.id).dedup

/-- How many distinct ledger ids are not yet collected: with the queue length
added, a strictly decreasing measure of the traversal loop. -/
def unseenCount (notes : List Note) (seen : List String) : Nat :=
  ((noteIds notes).filter (fun i => ¬(i ∈ seen))).length

theorem childIds_mem_noteIds (notes : List Note) (pid : String) :
    ∀ c ∈ childIds notes pid, c ∈ noteIds notes := by
  intro c hc
  simp only [childIds, List.mem_map, List.mem_filter] at hc
  obtain ⟨n, ⟨hn, _⟩, rfl⟩ := hc
  simp only [noteIds, List.mem_dedup, List.mem_map]
  exact ⟨n, hn, rfl⟩

theorem enqueueChildren_measure (notes : List Note) :
    ∀ (cs seen queue : List String), (∀ c ∈ cs, c ∈ noteIds notes) →
      unseenCount notes (enqueueChildren seen queue cs).1
          + (enqueueChildren seen queue cs).2.length
        ≤ unseenCount notes seen + queue.length := by
  intro cs
  induction cs with
  | nil => intro seen queue _; simp [enqueueChildren]
  | cons c cs ih =>
    intro seen queue hcs
    by_cases hc : c ∈ seen
    · simp only [enqueueChildren, if_pos hc]
      exact ih seen queue (fun x hx => hcs x (List.mem_cons_of_mem c hx))
    · simp only [enqueueChildren, if_neg hc]
      have step := ih (seen ++ [c]) (queue ++ [c])
        (fun x hx => hcs x (List.mem_cons_of_mem c hx))
      have hdrop : unseenCount notes (seen ++ [c]) + 1 ≤ unseenCount notes seen := by
        have hsub : List.Sublist ((noteIds notes).filter (fun i => ¬(i ∈ seen ++ [c])))
            ((noteIds notes).filter (fun i => ¬(i ∈ seen))) := by
          refine List.monotone_filter_right _ (fun a ha => ?_)
          simp only [decide_eq_true_eq, List.mem_append, List.mem_singleton] at ha ⊢
          exact fun h => ha (Or.inl h)
        have hcB : c ∈ (noteIds notes).filter (fun i => ¬(i ∈ seen)) := by
          simp only [List.mem_filter, decide_eq_true_eq]
          exact ⟨hcs c (List.mem_cons_self c cs), hc⟩
        have hcA : c ∉ (noteIds notes).filter (fun i => ¬(i ∈ seen ++ [c])) := by
          simp [List.mem_filter]
        have hlt : ((noteIds notes).filter (fun i => ¬(i ∈ seen ++ [c]))).length
            < ((noteIds notes).filter (fun i => ¬(i ∈ seen))).length := by
          refine Nat.lt_of_le_of_ne hsub.length_le (fun hlen => hcA ?_)
          exact (hsub.eq_of_length hlen) ▸ hcB
        simpa [unseenCount] using hlt
      calc unseenCount notes (enqueueChildren (seen ++ [c]) (queue ++ [c]) cs).1
            + (enqueueChildren (seen ++ [c]) (queue ++ [c]) cs).2.length
          ≤ unseenCount notes (seen ++ [c]) + (queue ++ [c]).length := step
        _ = unseenCount notes (seen ++ [c]) + 1 + queue.length := by
            simp [Nat.add_comm, Nat.add_assoc, Nat.add_left_comm]
        _ ≤ unseenCount notes seen + queue.length := by omega

/-- The traversal loop of `deleteNote`: dequeues an id, enqueues its not yet
collected children, and returns the collected set when the queue empties.
Total by the `unseenCount` measure: every enqueued id is a fresh distinct
ledger id. -/
def collect (notes : List Note) (seen queue : List String) : List String :=
  match queue with
  | [] => seen
  | currentId :: rest =>
    collect notes (enqueueChildren seen rest (childIds notes currentId)).1
                  (enqueueChildren seen rest (childIds notes currentId)).2
termination_by unseenCount notes seen + queue.length
decreasing_by
  have h := enqueueChildren_measure notes (childIds notes currentId) seen rest
    (childIds_mem_noteIds notes currentId)
  simp only [List.length_cons]
  omega

/-- The traversal loop with an explicit step budget: `none` when the budget
runs out before the queue empties. One unit of budget pays for one dequeued
id, so `some` means the loop finished within the budget. -/
def collectFuel (notes : List Note) : Nat → List String → List String → Option (List String)
  | _, seen, [] => some seen
  | 0, _, _ :: _ => none
  | fuel + 1, seen, currentId :: rest =>
    collectFuel notes fuel
      (enqueueChildren seen rest (childIds notes currentId)).1
      (enqueueChildren seen rest (childIds notes currentId)).2

/-- `deleteNote`: removes the target note and every transitively collected
descendant from the ledger in one rewrite. -/
def deleteNote (notes : List Note) (noteId : String) : List Note :=
  notes.filter (fun n => ¬(n.id ∈ collect notes [noteId] [noteId]))

/-- One child-ward step along `parentId` links: some note of the ledger has
id `y` and parent `x`. -/
def ChildStep (notes : List Note) (x y : String) : Prop :=
  ∃ n, n ∈ notes ∧ n.parentId = some x ∧ n.id = y

/-- `y` is `a` itself or a transitive descendant of `a`: reachable from `a`
by following `parentId` links child-ward. -/
def Descendant (notes : List Note) (a y : String) : Prop :=
  Relation.ReflTransGen (ChildStep notes) a y

/-- The per-note group scrub of `deleteGroup`: drop the group id from
`sharedWith.groups` when present. -/
def scrubGroup (groupId : String) (n : Note) : Note :=
  if groupId ∈ n.sharedWith.groups then
    { n with sharedWith :=
        ⟨n.sharedWith.users, n.sharedWith.groups.filter (fun g => ¬(g = groupId))⟩ }
  else n

/-- `deleteGroup`: removes the group from the group ledger, then scrubs its
id out of every note's `sharedWith.groups`. -/
def deleteGroup (st : StoreState) (groupId : String) : StoreState :=
  { st with
      groups := st.groups.filter (fun g => ¬(g.id = groupId)),
      notes := st.notes.map (scrubGroup groupId) }

/-! ## Raw ledger loading (`getFromStorage`)

The loader reads the raw serialized string of a ledger slot, parses it, and
fails open on corruption: an unparseable value, or a parsed value whose top
level is not an array, wipes the slot and yields the empty collection. The
host's `JSON.parse` is external to the repository and is passed in as a
partial parsing function (`none` models a thrown parse error). -/

/-- The persistence substrate as the loaders see it: a string-keyed slot map
(`getItem` returns `null`, here `none`, for an absent key). -/
structure RawStore where
  get : String → Option String

/-- `removeItem`: erase one key of the substrate. -/
def removeItem (st : RawStore) (key : String) : RawStore :=
  ⟨fun k => if k = key then none else st.get k⟩

/-- `getFromStorage`: load one ledger slot. `parse` stands for the host's
`JSON.parse` (`none` = exception), `migrateElem` for the loader-specific
element migration (the identity for every loader but the notes one), and
`validator` for the loader's element shape check. Absent and empty raw
values yield the empty collection with the slot untouched (the source's
falsy `!json` guard); a parse failure or a non-array top level wipes the
slot and yields the empty collection; an array is migrated and filtered
element-wise. -/
def getFromStorage (parse : String → Option JVal) (migrateElem : JVal → JVal)
    (validator : JVal → Bool) (st : RawStore) (key : String) :
    List JVal × RawStore :=
  match st.get key with
  | none => ([], st)
  | some json =>
    if json = "" then ([], st)
    else
      match parse json with
      | none => ([], removeItem st key)
      | some (.arr items) => ((items.map migrateElem).filter validator, st)
      | some _ => ([], removeItem st key)

/-! ## Concrete fixtures used by witnesses and counterexamples -/

/-- A project owned by user `u2`, whose settings carry category `X`. -/
def pOther : Project :=
  { id := "p1", name := "P", ownerId := "u2", color := "cat-sky",
    categories := ⟨[⟨"X", "cat-red"⟩], ["X"]⟩ }

/-- A project owned by user `u1`, whose settings carry categories `X` and
`Z`. -/
def pOwned : Project :=
  { id := "p2", name := "Q", ownerId := "u1", color := "cat-sky",
    categories := ⟨[⟨"X", "cat-red"⟩, ⟨"Z", "cat-blue"⟩], ["X", "Z"]⟩ }

/-- A note tagged with categories `X` and `Y`. -/
def nX : Note :=
  { id := "n1", text := "t", ownerId := "u3", categories := ["X", "Y"] }

/-- A store whose only project with id `p1` belongs to `u2`, with one note
tagged `X`. -/
def stOther : StoreState :=
  { users := [], notes := [nX], groups := [], projects := [pOther],
    userCats := fun _ => none, session := none }

/-- A store in which `u1` owns the only project, with one note tagged `X`. -/
def stOwned : StoreState :=
  { users := [], notes := [nX], groups := [], projects := [pOwned],
    userCats := fun _ => none, session := none }

/-- A registered user. -/
def uAlice : User := { id := "u1", username := "alice", password := "pw1" }

/-- A store with one registered user and no session. -/
def stAlice : StoreState :=
  { users := [uAlice], notes := [], groups := [], projects := [],
    userCats := fun _ => none, session := none }

/-- A store whose session slot references a user id absent from the user
ledger (a stale session). -/
def stStale : StoreState :=
  { users := [uAlice], notes := [], groups := [], projects := [],
    userCats := fun _ => none, session := some { id := "u9", username := "ghost" } }

/-- A legacy-shaped category settings object: string `masterList` entries
(one predefined name, one not) and an existing, empty, `active` list. -/
def fsLegacy : List (String × JVal) :=
  [("masterList", .arr [.str "Trabajo", .str "Gym"]), ("active", .arr [])]

/-- A raw store whose notes slot holds a string that is not JSON. -/
def rawGarbage : RawStore :=
  ⟨fun k => if k = "agenda_notes" then some "not json" else none⟩

/-- A raw store whose notes slot holds the empty string (which `JSON.parse`
rejects, but which the loader's falsy-string guard intercepts first). -/
def rawEmpty : RawStore :=
  ⟨fun k => if k = "agenda_notes" then some "" else none⟩

/-- A parse function that fails on every input: the behavior of the host's
`JSON.parse` on the raw strings these fixtures store. -/
def parseNever : String → Option JVal := fun _ => none

/-! ## Scrub helper lemmas -/

theorem scrubGroup_not_mem (G : String) (m : Note) :
    ¬(G ∈ (scrubGroup G m).sharedWith.groups) := by
  by_cases h : G ∈ m.sharedWith.groups
  · simp [scrubGroup, h, List.mem_filter]
  · simp [scrubGroup, h]

theorem scrubGroup_eq_of_not_mem (G : String) (m : Note)
    (h : ¬(G ∈ m.sharedWith.groups)) : scrubGroup G m = m := by
  simp [scrubGroup, h]

theorem scrubCat_not_mem (name : String) (m : Note) :
    ¬(name ∈ (scrubCat name m).categories) := by
  by_cases h : name ∈ m.categories
  · simp [scrubCat, h, List.mem_filter]
  · simp [scrubCat, h]

/-! ## Claim theorems -/

/-- Claim C8: after `deleteGroup G`, no group with id `G` remains in the
group ledger and no note's `sharedWith.groups` contains `G`; groups with a
different id survive exactly, and a note that never referenced `G` is kept
unchanged (the note ledger is rewritten pointwise by the group scrub). -/
theorem deleteGroup_removes_group_and_scrubs_notes (st : StoreState) (G : String) :
    (∀ g, ¬(g ∈ (deleteGroup st G).groups ∧ g.id = G)) ∧
    (∀ n, ¬(n ∈ (deleteGroup st G).notes ∧ G ∈ n.sharedWith.groups)) ∧
    (∀ g, g ∈ (deleteGroup st G).groups ↔ (g ∈ st.groups ∧ ¬(g.id = G))) ∧
    (∀ m, (m ∈ st.notes ∧ ¬(G ∈ m.sharedWith.groups)) → m ∈ (deleteGroup st G).notes) ∧
    (deleteGroup st G).notes = st.notes.map (scrubGroup G) := by
  refine ⟨?_, ?_, ?_, ?_, rfl⟩
  · intro g ⟨hg, hid⟩
    simp only [deleteGroup, List.mem_filter, decide_eq_true_eq] at hg
    exact hg.2 hid
  · intro n ⟨hn, hG⟩
    simp only [deleteGroup, List.mem_map] at hn
    obtain ⟨m, _, rfl⟩ := hn
    exact scrubGroup_not_mem G m hG
  · intro g
    simp [deleteGroup, List.mem_filter]
  · intro m ⟨hm, hG⟩
    simp only [deleteGroup, List.mem_map]
    exact ⟨m, hm, scrubGroup_eq_of_not_mem G m hG⟩

/-- Claim C6: `register` fails and leaves the user ledger (indeed the whole
state) exactly as it was precisely when the username is already present by
exact, case-sensitive match; and it appends exactly one new user record
precisely when the username is not already present. -/
theorem register_unique_username (st : StoreState) (username password newId : String) :
    (register st username password newId = (none, st)
      ↔ ∃ u, u ∈ st.users ∧ u.username = username) ∧
    ((register st username password newId).2.users
        = st.users ++ [{ id := newId, username := username, password := password }]
      ↔ ¬∃ u, u ∈ st.users ∧ u.username = username) := by
  by_cases h : st.users.any (fun u => u.username = username)
  · have hex : ∃ u, u ∈ st.users ∧ u.username = username := by
      simpa [List.any_eq_true] using h
    constructor
    · simp [register, h, hex]
    · simp only [register, if_pos h]
      constructor
      · intro hEq
        have := congrArg List.length hEq
        simp at this
      · intro hno
        exact absurd hex hno
  · have hnex : ¬∃ u, u ∈ st.users ∧ u.username = username := by
      simpa [List.any_eq_true] using h
    constructor
    · simp only [register, if_neg h]
      constructor
      · intro hEq
        have hfst := congrArg Prod.fst hEq
        simp at hfst
      · intro hex
        exact absurd hex hnex
    · simp [register, h, hnex]

/-- Claim C6 witness: with `alice` already registered, a second registration
of `alice` returns `none` and leaves the whole state untouched; registering
the fresh name `Alice` (case-sensitive comparison) appends a new record. -/
theorem register_unique_username_witness :
    (register stAlice "alice" "pw2" "u7" = (none, stAlice)) ∧
    ((register stAlice "Alice" "pw2" "u7").2.users
      = stAlice.users ++ [{ id := "u7", username := "Alice", password := "pw2" }]) :=
  ⟨(register_unique_username stAlice "alice" "pw2" "u7").1.mpr (by decide),
   (register_unique_username stAlice "Alice" "pw2" "u7").2.mpr (by decide)⟩

/-- Claim C9: when `deleteCategory` is called with a project id that no
project owned by the caller carries, the scope-update phase is a no-op —
the project ledger and the general category map are untouched — yet the
global note scrub still runs: the state is exactly the input state with
every note's categories stripped of the name. -/
theorem deleteCategory_unowned_project_scope_noop (st : StoreState)
    (userId name pid : String)
    (h : ∀ p, p ∈ st.projects → ¬(p.ownerId = userId ∧ p.id = pid)) :
    deleteCategory st userId name (some pid)
        = { st with notes := st.notes.map (scrubCat name) } ∧
    (deleteCategory st userId name (some pid)).projects = st.projects ∧
    (deleteCategory st userId name (some pid)).userCats = st.userCats ∧
    (∀ n, ¬(n ∈ (deleteCategory st userId name (some pid)).notes ∧ name ∈ n.categories)) := by
  have hfind : (getProjectsForUser st.projects userId).find?
      (fun p : Project => p.id = pid) = none := by
    rw [List.find?_eq_none]
    intro p hp
    simp only [getProjectsForUser, List.mem_filter, decide_eq_true_eq] at hp
    simp only [decide_eq_true_eq]
    exact fun hid => h p hp.1 ⟨hp.2, hid⟩
  have hmain : deleteCategory st userId name (some pid)
      = { st with notes := st.notes.map (scrubCat name) } := by
    simp [deleteCategory, hfind]
  refine ⟨hmain, by rw [hmain], by rw [hmain], ?_⟩
  intro n ⟨hn, hmem⟩
  rw [hmain] at hn
  simp only [List.mem_map] at hn
  obtain ⟨m, _, rfl⟩ := hn
  exact scrubCat_not_mem name m hmem

/-- Claim C9 witness: the store's only project with id `p1` belongs to `u2`;
`deleteCategory u1 X p1` leaves projects and the category map unchanged but
still strips `X` from the note tagged `X`. -/
theorem deleteCategory_unowned_project_scope_noop_witness :
    (∀ p, p ∈ stOther.projects → ¬(p.ownerId = "u1" ∧ p.id = "p1")) ∧
    (deleteCategory stOther "u1" "X" (some "p1")
        = { stOther with notes := stOther.notes.map (scrubCat "X") } ∧
     (deleteCategory stOther "u1" "X" (some "p1")).projects = stOther.projects ∧
     (deleteCategory stOther "u1" "X" (some "p1")).userCats = stOther.userCats ∧
     (∀ n, ¬(n ∈ (deleteCategory stOther "u1" "X" (some "p1")).notes ∧ "X" ∈ n.categories))) :=
  ⟨by decide, deleteCategory_unowned_project_scope_noop stOther "u1" "X" "p1" (by decide)⟩

/-- Claim C10: `register` never writes the session slot — for every state of
the store, live session or not, success or duplicate failure, the state
after the call carries the session content unchanged — and when
`getCurrentUser` reported no user before the call, it still reports no user
after it, provided the freshly generated id does not collide with the id a
stale session references (`uuid()` freshness). -/
theorem register_never_touches_session (st : StoreState) (username password newId : String) :
    (register st username password newId).2.session = st.session ∧
    ((getCurrentUser st).1 = none →
     (∀ sess, st.session = some sess → ¬(sess.id = newId)) →
     (getCurrentUser (register st username password newId).2).1 = none) := by
  constructor
  · by_cases h : st.users.any (fun u => u.username = username)
    · simp [register, h]
    · simp [register, h]
  · intro hnone hfresh
    by_cases h : st.users.any (fun u => u.username = username)
    · simpa [register, h] using hnone
    · match hs : st.session with
      | none => simp [getCurrentUser, register, h, hs]
      | some sess =>
        have hf : st.users.find? (fun u : User => u.id = sess.id) = none := by
          match hfind : st.users.find? (fun u : User => u.id = sess.id) with
          | none => rfl
          | some u => simp [getCurrentUser, hs, hfind] at hnone
        have hfresh1 : ¬(sess.id = newId) := hfresh sess hs
        have hfresh2 : ¬(newId = sess.id) := fun hEq => hfresh1 hEq.symm
        simp only [register, if_neg h, getCurrentUser, hs]
        rw [List.find?_append, hf]
        simp [hfresh2]

/-- Claim C10 witness: a store with a stale session (referencing the absent
id `u9`): `getCurrentUser` reports no user before, `register` with fresh id
`u7` leaves the session slot as it was, and `getCurrentUser` still reports
no user afterwards. -/
theorem register_never_touches_session_witness :
    ((getCurrentUser stStale).1 = none) ∧
    (register stStale "bob" "pw2" "u7").2.session = stStale.session ∧
    (getCurrentUser (register stStale "bob" "pw2" "u7").2).1 = none :=
  ⟨rfl,
   (register_never_touches_session stStale "bob" "pw2" "u7").1,
   (register_never_touches_session stStale "bob" "pw2" "u7").2 rfl
     (fun sess hs => by cases hs; decide)⟩

/-! ## `updateProject` replacement lemma (used by claim C3) -/

theorem updateProject_mem (projects : List Project) (up : Project) :
    ∀ q, q ∈ updateProject projects up → q ∈ projects ∨ q = up := by
  induction projects with
  | nil => intro q hq; simp [updateProject] at hq
  | cons p ps ih =>
    intro q hq
    by_cases hp : p.id = up.id
    · simp only [updateProject, if_pos hp, List.mem_cons] at hq
      rcases hq with rfl | hq
      · exact Or.inr rfl
      · exact Or.inl (List.mem_cons_of_mem p hq)
    · simp only [updateProject, if_neg hp, List.mem_cons] at hq
      rcases hq with rfl | hq
      · exact Or.inl (List.mem_cons_self q ps)
      · rcases ih q hq with hin | hup
        · exact Or.inl (List.mem_cons_of_mem p hin)
        · exact Or.inr hup

theorem updateProject_unique (projects : List Project) (up : Project)
    (hnodup : (projects.map Project.id).Nodup) :
    ∀ q, q ∈ updateProject projects up → q.id = up.id → q = up := by
  induction projects with
  | nil => intro q hq; simp [updateProject] at hq
  | cons p ps ih =>
    have hcons : (Project.id p :: ps.map Project.id).Nodup := by simpa using hnodup
    have hhead : ¬(p.id ∈ ps.map Project.id) := (List.nodup_cons.mp hcons).1
    have htail : (ps.map Project.id).Nodup := (List.nodup_cons.mp hcons).2
    intro q hq hid
    by_cases hp : p.id = up.id
    · simp only [updateProject, if_pos hp, List.mem_cons] at hq
      rcases hq with rfl | hq
      · rfl
      · have hqid : q.id ∈ ps.map Project.id := List.mem_map_of_mem Project.id hq
        rw [hid, ← hp] at hqid
        exact absurd hqid hhead
    · simp only [updateProject, if_neg hp, List.mem_cons] at hq
      rcases hq with rfl | hq
      · exact absurd hid hp
      · exact ih htail q hq hid

theorem deleteCategory_notes_eq (st : StoreState) (userId name : String)
    (projectId : Option String) :
    (deleteCategory st userId name projectId).notes = st.notes.map (scrubCat name) := by
  cases projectId with
  | none => rfl
  | some pid =>
    cases hf : (getProjectsForUser st.projects userId).find? (fun p : Project => p.id = pid) with
    | none => simp [deleteCategory, hf]
    | some project => simp [deleteCategory, hf]

/-- Claim C3 (amended): `deleteCategory userId name projectId` strips `name`
from the categories of every note in the ledger whatever the note's owner or
project; with no `projectId` it removes `name` from the caller's general
masterList and active list; with a `projectId`, provided the named project is
owned by `userId` and project ids are duplicate-free, the stored project
with that id ends with `name` removed from its masterList and active list.
(The original claim's unconditional project-scope update fails when the
named project exists but is owned by another user.) -/
theorem deleteCategory_global_scrub (st : StoreState) (userId name : String)
    (projectId : Option String)
    (hids : (st.projects.map Project.id).Nodup) :
    (∀ n, ¬(n ∈ (deleteCategory st userId name projectId).notes ∧ name ∈ n.categories)) ∧
    (projectId = none →
      ∃ s, (deleteCategory st userId name projectId).userCats userId = some s ∧
        (∀ c, ¬(c ∈ s.masterList ∧ c.name = name)) ∧ ¬(name ∈ s.active)) ∧
    (∀ pid p, projectId = some pid → p ∈ st.projects → p.id = pid → p.ownerId = userId →
      ∀ q, q ∈ (deleteCategory st userId name projectId).projects → q.id = pid →
        (∀ c, ¬(c ∈ q.categories.masterList ∧ c.name = name)) ∧
        ¬(name ∈ q.categories.active)) := by
  refine ⟨?_, ?_, ?_⟩
  · intro n ⟨hn, hmem⟩
    rw [deleteCategory_notes_eq] at hn
    simp only [List.mem_map] at hn
    obtain ⟨m, _, rfl⟩ := hn
    exact scrubCat_not_mem name m hmem
  · rintro rfl
    have hcats : (deleteCategory st userId name none).userCats userId
        = some ⟨(getGeneralCategories st.userCats userId).1.masterList.filter
                  (fun c => ¬(c.name = name)),
                (getGeneralCategories st.userCats userId).1.active.filter
                  (fun c => ¬(c = name))⟩ := by
      simp [deleteCategory, saveGeneralCategories]
    refine ⟨_, hcats, ?_, ?_⟩
    · intro c ⟨hc, hcn⟩
      simp only [List.mem_filter, decide_eq_true_eq] at hc
      exact hc.2 hcn
    · intro hact
      simp [List.mem_filter] at hact
  · rintro pid p rfl hp hid howner q hq hqid
    cases hf : (getProjectsForUser st.projects userId).find?
        (fun pr : Project => pr.id = pid) with
    | none =>
      have hnone := List.find?_eq_none.mp hf p
        (by simp only [getProjectsForUser, List.mem_filter, decide_eq_true_eq]
            exact ⟨hp, howner⟩)
      simp [hid] at hnone
    | some project =>
      have hfmem : project ∈ st.projects := by
        have := List.mem_of_find?_eq_some hf
        simp only [getProjectsForUser, List.mem_filter, decide_eq_true_eq] at this
        exact this.1
      have hfid : project.id = pid := by
        have := List.find?_some hf
        simpa using this
      simp only [deleteCategory, hf] at hq
      set updated : Project :=
        { project with categories :=
            ⟨project.categories.masterList.filter (fun c => ¬(c.name = name)),
             project.categories.active.filter (fun c => ¬(c = name))⟩ } with hupd
      have hupid : updated.id = pid := hfid
      have hqu : q = updated := by
        refine updateProject_unique st.projects updated hids q ?_ (by rw [hqid, hupid])

        exact hq
      subst hqu
      constructor
      · intro c ⟨hc, hcn⟩
        simp only [hupd, List.mem_filter, decide_eq_true_eq] at hc
        exact hc.2 hcn
      · intro hact
        simp [hupd, List.mem_filter] at hact

/-- Claim C3 counterexample: as stated, the claim fails when the supplied
project id names a project owned by a different user — `u1` deleting `X`
scoped to `u2`'s project `p1` leaves that project's settings untouched, so
`X` survives in the named project's masterList and active list. -/
theorem deleteCategory_other_owner_cex :
    (deleteCategory stOther "u1" "X" (some "p1")).projects = [pOther] ∧
    "X" ∈ pOther.categories.active ∧
    (∃ c, c ∈ pOther.categories.masterList ∧ c.name = "X") := by
  decide

/-- Claim C3 witness: in a store where `u1` owns project `p2` carrying
category `X`, deleting `X` scoped to `p2` scrubs every note and removes `X`
from the stored project's settings. -/
theorem deleteCategory_global_scrub_witness :
    ((stOwned.projects.map Project.id).Nodup) ∧
    ((∀ n, ¬(n ∈ (deleteCategory stOwned "u1" "X" (some "p2")).notes ∧ "X" ∈ n.categories)) ∧
     ((some "p2" : Option String) = none →
       ∃ s, (deleteCategory stOwned "u1" "X" (some "p2")).userCats "u1" = some s ∧
         (∀ c, ¬(c ∈ s.masterList ∧ c.name = "X")) ∧ ¬("X" ∈ s.active)) ∧
     (∀ pid p, (some "p2" : Option String) = some pid → p ∈ stOwned.projects →
        p.id = pid → p.ownerId = "u1" →
        ∀ q, q ∈ (deleteCategory stOwned "u1" "X" (some "p2")).projects → q.id = pid →
          (∀ c, ¬(c ∈ q.categories.masterList ∧ c.name = "X")) ∧
          ¬("X" ∈ q.categories.active))) :=
  ⟨by decide, deleteCategory_global_scrub stOwned "u1" "X" (some "p2") (by decide)⟩

/-! ## Shape lemmas for `migrateCategories` (claims C4 and C5) -/

theorem migEntry_ok_shape (a b : JVal) (h : migEntry a = .ok b) : ∃ s, b = mkCat s := by
  cases a
  case str s =>
    simp only [migEntry] at h
    injection h with h
    exact ⟨s, h.symm⟩
  all_goals exact Except.noConfusion h

theorem jsMapList_shape (items : List JVal) :
    ∀ ml, jsMapList migEntry items = .ok ml → ∀ c ∈ ml, ∃ s, c = mkCat s := by
  induction items with
  | nil =>
    intro ml h
    simp only [jsMapList] at h
    injection h with h
    subst h
    simp
  | cons a as ih =>
    intro ml h
    simp only [jsMapList] at h
    cases ha : migEntry a with
    | error e => rw [ha] at h; cases h
    | ok b =>
      rw [ha] at h
      cases hml : jsMapList migEntry as with
      | error e => rw [hml] at h; cases h
      | ok bs =>
        rw [hml] at h
        injection h with h
        subst h
        intro c hc
        rcases List.mem_cons.mp hc with rfl | hc
        · exact migEntry_ok_shape a c ha
        · exact ih bs hml c hc

theorem jsMap_ok_shape (v : JVal) (ml : List JVal) (h : jsMap migEntry v = .ok ml) :
    ∀ c ∈ ml, ∃ s, c = mkCat s := by
  cases v <;> simp only [jsMap] at h <;> first
    | cases h
    | exact jsMapList_shape _ ml h

/-- A `{ masterList, active }` object whose master entries are migrated
categories is a fixpoint of `migrateCategories`: the first branch rejects it
(an object is not an array), the second rejects it (its first master entry is
an object, not a string), and the third returns it unchanged. -/
theorem migrate_settingsObj_stable (ml : List JVal) (act : JVal)
    (h : ∀ c ∈ ml, ∃ s, c = mkCat s) :
    migrateCategories (settingsObj ml act) = .ok (settingsObj ml act) := by
  cases ml with
  | nil => rfl
  | cons c cs =>
    obtain ⟨s, rfl⟩ := h c (List.mem_cons_self c cs)
    rfl

/-- Claim C4: `migrateCategories` is idempotent — feeding its result back in
returns it unchanged, for every untyped input value (bare name lists,
legacy-shaped objects, current-shaped objects, and unrecognized values
alike); an erroring run trivially reproduces itself under `bind`. -/
theorem migrateCategories_idempotent (x : JVal) :
    (migrateCategories x).bind migrateCategories = migrateCategories x := by
  match hmx : migrateCategories x with
  | .error e => rfl
  | .ok y =>
    show migrateCategories y = .ok y
    unfold migrateCategories at hmx
    by_cases h1 : (isArr x && isStrO (getIndex0 x)) = true
    · rw [if_pos h1] at hmx
      cases hml : jsMap migEntry x with
      | error e => rw [hml] at hmx; exact Except.noConfusion hmx
      | ok ml =>
        rw [hml] at hmx
        injection hmx with hmx
        rw [← hmx]
        exact migrate_settingsObj_stable ml _ (jsMap_ok_shape x ml hml)
    · rw [if_neg h1] at hmx
      by_cases h2 : (truthy x && truthyO (getField x "masterList")
          && isStrO (getIndex0 ((getField x "masterList").getD .null))) = true
      · rw [if_pos h2] at hmx
        cases hml : jsMap migEntry ((getField x "masterList").getD .null) with
        | error e => rw [hml] at hmx; exact Except.noConfusion hmx
        | ok ml =>
          rw [hml] at hmx
          injection hmx with hmx
          rw [← hmx]
          exact migrate_settingsObj_stable ml _
            (jsMap_ok_shape ((getField x "masterList").getD .null) ml hml)
      · rw [if_neg h2] at hmx
        by_cases h3 : (truthy x && isArrO (getField x "masterList")) = true
        · rw [if_pos h3] at hmx
          injection hmx with hmx
          rw [← hmx]
          unfold migrateCategories
          rw [if_neg h1, if_neg h2, if_pos h3]
        · rw [if_neg h3] at hmx
          injection hmx with hmx
          rw [← hmx]
          exact migrate_settingsObj_stable [] _ (by simp)

theorem jsMapList_strs (ms : List String) :
    jsMapList migEntry (ms.map JVal.str) = .ok (ms.map mkCat) := by
  induction ms with
  | nil => rfl
  | cons m ms ih => simp [jsMapList, migEntry, ih]

/-- Claim C5: on a `CategorySettings`-shaped object whose `masterList`
entries are bare strings and which carries an existing `active` list (empty
or not), `migrateCategories` keeps that `active` list unchanged and resolves
each master name to a colored category via `colorFor` (the predefined color,
or the palette entry selected by `stringToHash name` modulo the palette
size). -/
theorem migrateCategories_preserves_active (fs : List (String × JVal))
    (ms : List String) (act : List JVal)
    (hm : lookupField fs "masterList" = some (.arr (ms.map JVal.str)))
    (ha : lookupField fs "active" = some (.arr act)) :
    ∃ r, migrateCategories (.obj fs) = .ok r ∧
      getField r "active" = some (.arr act) ∧
      getField r "masterList" = some (.arr (ms.map mkCat)) := by
  cases ms with
  | nil =>
    have hg : getField (JVal.obj fs) "masterList" = some (.arr []) := by
      simpa using hm
    refine ⟨.obj fs, ?_, by simpa [getField] using ha, by simpa [getField] using hm⟩
    unfold migrateCategories
    rw [hg]
    rfl
  | cons m ms' =>
    have hg : getField (JVal.obj fs) "masterList"
        = some (.arr ((m :: ms').map JVal.str)) := by simpa using hm
    have hga : getField (JVal.obj fs) "active" = some (.arr act) := by
      simpa using ha
    refine ⟨settingsObj ((m :: ms').map mkCat) (.arr act), ?_, rfl, rfl⟩
    unfold migrateCategories
    rw [hg, hga]
    rw [if_neg (by simp [isArr])]
    rw [if_pos (by rfl)]
    rw [Option.getD_some]
    simp only [jsMap]
    rw [jsMapList_strs]
    rfl

/-- Claim C5 witness: the legacy object with master names `Trabajo` (a
predefined category) and `Gym` (hash-colored) and an empty `active` list
migrates to resolved categories while keeping `active` empty. -/
theorem migrateCategories_preserves_active_witness :
    (lookupField fsLegacy "masterList"
        = some (.arr (["Trabajo", "Gym"].map JVal.str))) ∧
    (lookupField fsLegacy "active" = some (.arr [])) ∧
    (∃ r, migrateCategories (.obj fsLegacy) = .ok r ∧
      getField r "active" = some (.arr []) ∧
      getField r "masterList" = some (.arr (["Trabajo", "Gym"].map mkCat))) :=
  ⟨rfl, rfl, migrateCategories_preserves_active fsLegacy ["Trabajo", "Gym"] [] rfl rfl⟩

/-- Claim C7 (amended): for every loader instance (any parse function,
element migration and element validator) and every non-empty stored value
that either fails to parse or parses to a non-array top level, the load
returns the empty collection and erases the stored key, so a subsequent
read of that slot observes no stored value; the loader is a total function,
so no error reaches the caller. (The original claim additionally covered the
empty-string stored value, where it fails: the loader's falsy-string guard
returns the empty collection without erasing the slot — see the
counterexample.) -/
theorem getFromStorage_corrupt_wipes (parse : String → Option JVal)
    (migrateElem : JVal → JVal) (validator : JVal → Bool)
    (st : RawStore) (key s : String)
    (hs : st.get key = some s) (hne : ¬(s = ""))
    (hbad : parse s = none ∨ ∃ v, parse s = some v ∧ isArr v = false) :
    getFromStorage parse migrateElem validator st key = ([], removeItem st key) ∧
    (removeItem st key).get key = none := by
  refine ⟨?_, by simp [removeItem]⟩
  rcases hbad with hb | ⟨v, hv, hvarr⟩
  · simp [getFromStorage, hs, hne, hb]
  · cases v
    case arr items => simp [isArr] at hvarr
    all_goals simp [getFromStorage, hs, hne, hv]

/-- Claim C7 counterexample: the empty string is a stored value that fails
to parse (the parse function rejects every string, as `JSON.parse` rejects
the empty string), yet the loader returns the empty collection without
erasing the slot — the subsequent read still observes the stored empty
string, contradicting the claimed unconditional wipe. -/
theorem getFromStorage_empty_string_cex :
    (getFromStorage parseNever id (fun _ => true) rawEmpty "agenda_notes").1 = [] ∧
    (getFromStorage parseNever id (fun _ => true) rawEmpty "agenda_notes").2.get
        "agenda_notes" = some "" ∧
    parseNever "" = none :=
  ⟨rfl, rfl, rfl⟩

/-- Claim C7 witness: the non-JSON string `not json` stored in the notes
slot is wiped by the load, the load returns the empty collection, and the
slot afterwards reads back absent. -/
theorem getFromStorage_corrupt_wipes_witness :
    (rawGarbage.get "agenda_notes" = some "not json") ∧
    (¬("not json" = "")) ∧
    (parseNever "not json" = none ∨
      ∃ v, parseNever "not json" = some v ∧ isArr v = false) ∧
    (getFromStorage parseNever id (fun _ => true) rawGarbage "agenda_notes"
        = ([], removeItem rawGarbage "agenda_notes") ∧
     (removeItem rawGarbage "agenda_notes").get "agenda_notes" = none) :=
  ⟨rfl, by decide, Or.inl rfl,
   getFromStorage_corrupt_wipes parseNever id (fun _ => true) rawGarbage
     "agenda_notes" "not json" rfl (by decide) (Or.inl rfl)⟩

/-! ## Traversal lemmas for `deleteNote` (claims C1 and C2) -/

theorem enqueueChildren_seen_subset :
    ∀ (cs seen queue : List String), ∀ x ∈ seen, x ∈ (enqueueChildren seen queue cs).1 := by
  intro cs
  induction cs with
  | nil => intro seen queue x hx; simpa [enqueueChildren] using hx
  | cons c cs ih =>
    intro seen queue x hx
    by_cases hc : c ∈ seen
    · simp only [enqueueChildren, if_pos hc]
      exact ih seen queue x hx
    · simp only [enqueueChildren, if_neg hc]
      exact ih (seen ++ [c]) (queue ++ [c]) x (List.mem_append_left _ hx)

theorem enqueueChildren_cs_subset :
    ∀ (cs seen queue : List String), ∀ c ∈ cs, c ∈ (enqueueChildren seen queue cs).1 := by
  intro cs
  induction cs with
  | nil => intro seen queue c hc; cases hc
  | cons a cs ih =>
    intro seen queue c hc
    rcases List.mem_cons.mp hc with rfl | hc
    · by_cases ha : c ∈ seen
      · simp only [enqueueChildren, if_pos ha]
        exact enqueueChildren_seen_subset cs seen queue c ha
      · simp only [enqueueChildren, if_neg ha]
        exact enqueueChildren_seen_subset cs (seen ++ [c]) (queue ++ [c]) c
          (List.mem_append_right _ (List.mem_singleton.mpr rfl))
    · by_cases ha : a ∈ seen
      · simp only [enqueueChildren, if_pos ha]
        exact ih seen queue c hc
      · simp only [enqueueChildren, if_neg ha]
        exact ih (seen ++ [a]) (queue ++ [a]) c hc

theorem enqueueChildren_queue_subset :
    ∀ (cs seen queue : List String), ∀ x ∈ queue, x ∈ (enqueueChildren seen queue cs).2 := by
  intro cs
  induction cs with
  | nil => intro seen queue x hx; simpa [enqueueChildren] using hx
  | cons c cs ih =>
    intro seen queue x hx
    by_cases hc : c ∈ seen
    · simp only [enqueueChildren, if_pos hc]
      exact ih seen queue x hx
    · simp only [enqueueChildren, if_neg hc]
      exact ih (seen ++ [c]) (queue ++ [c]) x (List.mem_append_left _ hx)

theorem enqueueChildren_snd_from :
    ∀ (cs seen queue : List String), ∀ x ∈ (enqueueChildren seen queue cs).2,
      x ∈ queue ∨ x ∈ cs := by
  intro cs
  induction cs with
  | nil => intro seen queue x hx; exact Or.inl (by simpa [enqueueChildren] using hx)
  | cons c cs ih =>
    intro seen queue x hx
    by_cases hc : c ∈ seen
    · simp only [enqueueChildren, if_pos hc] at hx
      rcases ih seen queue x hx with hq | hcs
      · exact Or.inl hq
      · exact Or.inr (List.mem_cons_of_mem c hcs)
    · simp only [enqueueChildren, if_neg hc] at hx
      rcases ih (seen ++ [c]) (queue ++ [c]) x hx with hq | hcs
      · rcases List.mem_append.mp hq with hq | hx1
        · exact Or.inl hq
        · exact Or.inr (List.mem_cons.mpr (Or.inl (List.mem_singleton.mp hx1)))
      · exact Or.inr (List.mem_cons_of_mem c hcs)

theorem enqueueChildren_snd_sub_fst :
    ∀ (cs seen queue : List String), (∀ x ∈ queue, x ∈ seen) →
      ∀ x ∈ (enqueueChildren seen queue cs).2, x ∈ (enqueueChildren seen queue cs).1 := by
  intro cs
  induction cs with
  | nil =>
    intro seen queue hqs x hx
    simp only [enqueueChildren] at hx ⊢
    exact hqs x hx
  | cons c cs ih =>
    intro seen queue hqs x hx
    by_cases hc : c ∈ seen
    · simp only [enqueueChildren, if_pos hc] at hx ⊢
      exact ih seen queue hqs x hx
    · simp only [enqueueChildren, if_neg hc] at hx ⊢
      refine ih (seen ++ [c]) (queue ++ [c]) ?_ x hx
      intro y hy
      rcases List.mem_append.mp hy with hy | hy
      · exact List.mem_append_left _ (hqs y hy)
      · exact List.mem_append_right _ hy

theorem enqueueChildren_fst_or_snd :
    ∀ (cs seen queue : List String), ∀ x ∈ (enqueueChildren seen queue cs).1,
      x ∈ seen ∨ x ∈ (enqueueChildren seen queue cs).2 := by
  intro cs
  induction cs with
  | nil => intro seen queue x hx; exact Or.inl (by simpa [enqueueChildren] using hx)
  | cons c cs ih =>
    intro seen queue x hx
    by_cases hc : c ∈ seen
    · simp only [enqueueChildren, if_pos hc] at hx ⊢
      exact ih seen queue x hx
    · simp only [enqueueChildren, if_neg hc] at hx ⊢
      rcases ih (seen ++ [c]) (queue ++ [c]) x hx with hs | hq
      · rcases List.mem_append.mp hs with hs | hx1
        · exact Or.inl hs
        · refine Or.inr (enqueueChildren_queue_subset cs (seen ++ [c]) (queue ++ [c]) x ?_)
          exact List.mem_append_right _ hx1
      · exact Or.inr hq

theorem enqueueChildren_fst_nodup :
    ∀ (cs seen queue : List String), seen.Nodup → (enqueueChildren seen queue cs).1.Nodup := by
  intro cs
  induction cs with
  | nil => intro seen queue h; simpa [enqueueChildren] using h
  | cons c cs ih =>
    intro seen queue h
    by_cases hc : c ∈ seen
    · simp only [enqueueChildren, if_pos hc]
      exact ih seen queue h
    · simp only [enqueueChildren, if_neg hc]
      refine ih (seen ++ [c]) (queue ++ [c]) ?_
      refine List.nodup_append.mpr ⟨h, List.nodup_singleton c, ?_⟩
      intro y hy hy1
      rw [List.mem_singleton] at hy1
      subst hy1
      exact hc hy

theorem mem_childIds (notes : List Note) (x c : String) :
    c ∈ childIds notes x ↔ ChildStep notes x c := by
  simp only [childIds, List.mem_map, List.mem_filter, ChildStep, decide_eq_true_eq]
  constructor
  · rintro ⟨n, ⟨hn, hp⟩, rfl⟩
    exact ⟨n, hn, hp, rfl⟩
  · rintro ⟨n, hn, hp, rfl⟩
    exact ⟨n, ⟨hn, hp⟩, rfl⟩

theorem collect_mono (notes : List Note) :
    ∀ (seen queue : List String), ∀ x ∈ seen, x ∈ collect notes seen queue := by
  intro seen queue
  induction seen, queue using collect.induct notes with
  | case1 seen => simp [collect]
  | case2 seen currentId rest ih =>
    intro x hx
    rw [collect]
    exact ih x (enqueueChildren_seen_subset (childIds notes currentId) seen rest x hx)

theorem collect_sound (notes : List Note) (a : String) :
    ∀ (seen queue : List String),
      (∀ x ∈ seen, Descendant notes a x) → (∀ x ∈ queue, Descendant notes a x) →
      ∀ x ∈ collect notes seen queue, Descendant notes a x := by
  intro seen queue
  induction seen, queue using collect.induct notes with
  | case1 seen =>
    intro hseen _ x hx
    rw [collect] at hx
    exact hseen x hx
  | case2 seen currentId rest ih =>
    intro hseen hqueue x hx
    rw [collect] at hx
    have hchild : ∀ c ∈ childIds notes currentId, Descendant notes a c := by
      intro c hc
      exact Relation.ReflTransGen.tail
        (hqueue currentId (List.mem_cons_self currentId rest))
        ((mem_childIds notes currentId c).mp hc)
    refine ih ?_ ?_ x hx
    · intro y hy
      rcases enqueueChildren_fst_or_snd (childIds notes currentId) seen rest y hy with hs | hq
      · exact hseen y hs
      · rcases enqueueChildren_snd_from (childIds notes currentId) seen rest y hq with hr | hc
        · exact hqueue y (List.mem_cons_of_mem currentId hr)
        · exact hchild y hc
    · intro y hy
      rcases enqueueChildren_snd_from (childIds notes currentId) seen rest y hy with hr | hc
      · exact hqueue y (List.mem_cons_of_mem currentId hr)
      · exact hchild y hc

theorem collect_closed (notes : List Note) :
    ∀ (seen queue : List String),
      (∀ x ∈ queue, x ∈ seen) →
      (∀ x ∈ seen, x ∈ queue ∨ (∀ c ∈ childIds notes x, c ∈ seen)) →
      ∀ x ∈ collect notes seen queue, ∀ c ∈ childIds notes x,
        c ∈ collect notes seen queue := by
  intro seen queue
  induction seen, queue using collect.induct notes with
  | case1 seen =>
    intro _ hinv x hx c hc
    rw [collect] at hx ⊢
    rcases hinv x hx with hq | hclosed
    · cases hq
    · exact hclosed c hc
  | case2 seen currentId rest ih =>
    intro hqs hinv x hx c hc
    rw [collect] at hx ⊢
    refine ih ?_ ?_ x hx c hc
    · exact enqueueChildren_snd_sub_fst (childIds notes currentId) seen rest
        (fun y hy => hqs y (List.mem_cons_of_mem currentId hy))
    · intro y hy
      rcases enqueueChildren_fst_or_snd (childIds notes currentId) seen rest y hy with hs | hq
      · rcases hinv y hs with hyq | hyclosed
        · rcases List.mem_cons.mp hyq with rfl | hyr
          · exact Or.inr (fun c2 hc2 =>
              enqueueChildren_cs_subset (childIds notes y) seen rest c2 hc2)
          · exact Or.inl
              (enqueueChildren_queue_subset (childIds notes currentId) seen rest y hyr)
        · exact Or.inr (fun c2 hc2 =>
            enqueueChildren_seen_subset (childIds notes currentId) seen rest c2
              (hyclosed c2 hc2))
      · exact Or.inl hq

theorem collect_nodup (notes : List Note) :
    ∀ (seen queue : List String), seen.Nodup → (collect notes seen queue).Nodup := by
  intro seen queue
  induction seen, queue using collect.induct notes with
  | case1 seen => intro h; simpa [collect] using h
  | case2 seen currentId rest ih =>
    intro h
    rw [collect]
    exact ih (enqueueChildren_fst_nodup (childIds notes currentId) seen rest h)

theorem collectFuel_eq_collect (notes : List Note) :
    ∀ (fuel : Nat) (seen queue : List String),
      unseenCount notes seen + queue.length ≤ fuel →
      collectFuel notes fuel seen queue = some (collect notes seen queue) := by
  intro fuel
  induction fuel with
  | zero =>
    intro seen queue h
    have hq : queue = [] := List.eq_nil_of_length_eq_zero (by omega)
    subst hq
    simp [collectFuel, collect]
  | succ fuel ih =>
    intro seen queue h
    cases queue with
    | nil => simp [collectFuel, collect]
    | cons currentId rest =>
      have hm := enqueueChildren_measure notes (childIds notes currentId) seen rest
        (childIds_mem_noteIds notes currentId)
      simp only [collectFuel]
      rw [collect]
      refine ih _ _ ?_
      simp only [List.length_cons] at h
      omega

/-- Claim C2: the traversal loop of `deleteNote` terminates on every finite
ledger, cyclic `parentId` chains included: running it with a step budget of
`notes.length + 1` dequeue steps already completes (the seen-set guard never
lets an id be collected twice, which the `Nodup` of the collected set
records). -/
theorem deleteNote_traversal_terminates (notes : List Note) (noteId : String) :
    collectFuel notes (notes.length + 1) [noteId] [noteId]
      = some (collect notes [noteId] [noteId]) ∧
    (collect notes [noteId] [noteId]).Nodup := by
  constructor
  · apply collectFuel_eq_collect
    have h1 : unseenCount notes [noteId] ≤ (noteIds notes).length :=
      List.length_filter_le _ _
    have h2 : (noteIds notes).length ≤ notes.length := by
      have h3 := (List.dedup_sublist (notes.map Note.id)).length_le
      simpa [noteIds] using h3
    simp only [List.length_singleton]
    omega
  · exact collect_nodup notes [noteId] [noteId] (List.nodup_singleton noteId)

theorem mem_collect_iff (notes : List Note) (noteId : String) (x : String) :
    x ∈ collect notes [noteId] [noteId] ↔ Descendant notes noteId x := by
  constructor
  · intro hx
    refine collect_sound notes noteId [noteId] [noteId] ?_ ?_ x hx
    · intro y hy
      rw [List.mem_singleton] at hy
      subst hy
      exact Relation.ReflTransGen.refl
    · intro y hy
      rw [List.mem_singleton] at hy
      subst hy
      exact Relation.ReflTransGen.refl
  · intro hD
    induction hD with
    | refl =>
      exact collect_mono notes [noteId] [noteId] noteId (List.mem_singleton.mpr rfl)
    | tail hab hbc ih =>
      exact collect_closed notes [noteId] [noteId] (fun y hy => hy)
        (fun y hy => Or.inl hy) _ ih _ ((mem_childIds notes _ _).mpr hbc)

/-- Claim C1: `deleteNote` removes exactly the target and its transitive
descendants — a note survives precisely when its id is not reachable from
the target by child-ward `parentId` links — and the survivors are kept as a
sublist of the original ledger, each record unchanged. -/
theorem deleteNote_removes_exactly_descendants (notes : List Note) (noteId : String) :
    List.Sublist (deleteNote notes noteId) notes ∧
    (∀ n, n ∈ deleteNote notes noteId ↔ (n ∈ notes ∧ ¬ Descendant notes noteId n.id)) := by
  refine ⟨List.filter_sublist notes, ?_⟩
  intro n
  simp only [deleteNote, List.mem_filter, decide_eq_true_eq]
  rw [mem_collect_iff]

end Agenda
